import Mathlib

/-!
Verification of the graph library: a node pool with BTreeMap adjacency,
weak/strong handles, depth-first and breadth-first traversal iterators,
and an array-based Dijkstra shortest-path routine.

The embedding mirrors `src/lib.rs`:
* `Graph` is the pool (`Vec<Adjacency<T, E>>`); each `Adjacency` stores the
  payload and a `BTreeMap<usize, E>` of out-edges, embedded as an
  association list kept sorted by key (the `Graph.WF` invariant).
* Operations that can panic on out-of-bounds indices return `Option`
  (`none` models the panic).
* `dijkstras` is translated statement by statement, including the
  `min_by` tie policy (first minimum), the `break 'outer` check placed
  inside the edge loop, and the `?` on `distance[next]` that aborts the
  whole call.
* The traversal iterators are modelled by the full list of nodes they
  yield; both are instances of one worklist loop `traverseAux`,
  differing only in where freshly discovered nodes are placed.
-/

/-- One entry of the node pool: the payload and the ordered out-edge map
(`BTreeMap<usize, E>` embedded as an association list sorted by key). -/
structure Adjacency (T E : Type) where
  value : T
  edges : List (Nat × E)

/-- The graph: an append-only pool of adjacency entries, identity = index. -/
structure Graph (T E : Type) where
  nodes : List (Adjacency T E)

/-- Number of nodes in the pool (`self.nodes.len()`). -/
def Graph.size {T E : Type} (g : Graph T E) : Nat := g.nodes.length

/-- The out-edge list of node `i` (`self.nodes[i].edges`); `[]` past the pool,
a case the theorems exclude by bounds hypotheses since Rust would panic there. -/
def Graph.edgesOf {T E : Type} (g : Graph T E) (i : Nat) : List (Nat × E) :=
  match g.nodes[i]? with
  | some a => a.edges
  | none => []

/-- Destination indices of node `i`'s out-edges, in stored (ascending) order.
This is the sequence of indices the `Neighbors` iterator yields. -/
def Graph.keysOf {T E : Type} (g : Graph T E) (i : Nat) : List Nat :=
  (g.edgesOf i).map Prod.fst

/-- The payload of node `i` (`Deref` on a `Node` handle); `none` models the
index panic on an out-of-bounds handle. -/
def Graph.valueAt {T E : Type} (g : Graph T E) (i : Nat) : Option T :=
  (g.nodes[i]?).map Adjacency.value

/-- Insertion into the sorted association list: the embedding of
`BTreeMap::insert`, which overwrites the value when the key is present. -/
def btreeInsert {E : Type} (k : Nat) (w : E) : List (Nat × E) → List (Nat × E)
  | [] => [(k, w)]
  | (k2, w2) :: rest =>
    if k < k2 then (k, w) :: (k2, w2) :: rest
    else if k = k2 then (k, w) :: rest
    else (k2, w2) :: btreeInsert k w rest

/-- Lookup in the association list: the embedding of `BTreeMap` key lookup. -/
def edgeLookup {E : Type} (k : Nat) : List (Nat × E) → Option E
  | [] => none
  | (k2, w) :: rest => if k2 = k then some w else edgeLookup k rest

/-- Replace the element at one position of a list, leaving other positions
and the length unchanged (`self.nodes[start.0]` as a place expression). -/
def listModify {α : Type} (f : α → α) : Nat → List α → List α
  | _, [] => []
  | 0, a :: rest => f a :: rest
  | n + 1, a :: rest => a :: listModify f n rest

/-- `Graph::connect_weighted`: insert/overwrite the directed edge
`start → end`. `none` models the `assert!` panic when either index is out
of the pool's bounds. -/
def Graph.connect_weighted {T E : Type} (g : Graph T E) (s e : Nat) (w : E) :
    Option (Graph T E) :=
  if s < g.size ∧ e < g.size then
    some ⟨listModify (fun a => ⟨a.value, btreeInsert e w a.edges⟩) s g.nodes⟩
  else none

/-- `Graph::connect_undirected_weighted`: the directed form twice, once in
each direction, with the same weight. -/
def Graph.connect_undirected_weighted {T E : Type} (g : Graph T E) (s e : Nat) (w : E) :
    Option (Graph T E) :=
  (g.connect_weighted s e w).bind fun g2 => g2.connect_weighted e s w

/-- `Graph::weak_ref`: turn an index-only handle into a validated one;
`none` models the `assert!` panic on an out-of-bounds index. -/
def Graph.weak_ref {T E : Type} (g : Graph T E) (i : Nat) : Option Nat :=
  if i < g.size then some i else none

/-- `Graph::weak_mut`: identical bounds contract to `weak_ref`, returning an
exclusive handle. -/
def Graph.weak_mut {T E : Type} (g : Graph T E) (i : Nat) : Option Nat :=
  if i < g.size then some i else none

/-- `Graph::arbitrary_node`: the source is a `const fn` that builds the
index-0 handle with no bounds check, so the embedding never returns `none`,
even on an empty pool. -/
def Graph.arbitrary_node {T E : Type} (_g : Graph T E) : Option Nat :=
  some 0

/-- Modelled from the spec: `Graph::insert` is used by the repository's test
and described in the spec ("appends a new adjacency entry with empty edge
mapping, returns an exclusive handle to it"), but its definition is not in
the provided sources. Returns the grown graph and the new node's index. -/
def Graph.insertNode {T E : Type} (g : Graph T E) (v : T) : Graph T E × Nat :=
  (⟨g.nodes ++ [⟨v, []⟩]⟩, g.nodes.length)

/-- Well-formedness maintained by the API: every adjacency list has strictly
ascending keys (a `BTreeMap` cannot hold duplicates and iterates in order)
and every edge points inside the pool (`connect_weighted` checks bounds). -/
def Graph.WF {T E : Type} (g : Graph T E) : Prop :=
  ∀ a ∈ g.nodes, (a.edges.map Prod.fst).Pairwise (· < ·) ∧
    ∀ p ∈ a.edges, p.1 < g.nodes.length

instance {T E : Type} (g : Graph T E) : Decidable g.WF := by
  unfold Graph.WF; infer_instance

/-- A directed edge from `a` to `b` exists in `g`. -/
def Graph.EdgeTo {T E : Type} (g : Graph T E) (a b : Nat) : Prop :=
  b ∈ g.keysOf a

instance {T E : Type} (g : Graph T E) (a b : Nat) : Decidable (g.EdgeTo a b) := by
  unfold Graph.EdgeTo; infer_instance

/-- Reachability along directed edges: the reflexive-transitive closure of
`EdgeTo` (every node reaches itself). -/
def Graph.Reach {T E : Type} (g : Graph T E) (s x : Nat) : Prop :=
  Relation.ReflTransGen (g.EdgeTo) s x

/-! Dijkstra, translated from `Graph::dijkstras`. Weights are `Nat`
(the shallow embedding of the unsigned weights the reference test uses);
tentative distances are `Option Nat` with `none` as infinity. -/

/-- Tentative-distance read `distance[i]` (always in bounds in the source). -/
def distAt (dist : List (Option Nat)) (i : Nat) : Option Nat :=
  dist.getD i none

/-- The comparator passed to `min_by` in `dijkstras`: a known distance sorts
below an unknown one, two unknown distances tie. -/
def cmpDist : Option Nat → Option Nat → Ordering
  | some _, none => Ordering.lt
  | none, none => Ordering.eq
  | none, some _ => Ordering.gt
  | some a, some b => compare a b

/-- `remaining.iter().enumerate().min_by(..)`: the first minimal element
under `cmpDist` (Rust's `min_by` keeps the earliest of equal minima),
returned as (position, value). -/
def minByAux (dist : List (Option Nat)) :
    List Nat → Nat → Option (Nat × Nat) → Option (Nat × Nat)
  | [], _, acc => acc
  | a :: rest, i, acc =>
    match acc with
    | none => minByAux dist rest (i + 1) (some (i, a))
    | some (bi, b) =>
      if cmpDist (distAt dist a) (distAt dist b) = Ordering.lt then
        minByAux dist rest (i + 1) (some (i, a))
      else
        minByAux dist rest (i + 1) (some (bi, b))

/-- The inner `for (step, weight) in &self.nodes[next].edges` loop of
`dijkstras`. Returns `none` when `distance[next].clone()?` fires (aborting
the whole call); otherwise `(brk, dist, pred)` where `brk` records that
`break 'outer` ran because `next == end`. The `next == end` test sits
inside the loop, so a node with no out-edges never triggers the break. -/
def relaxEdges (endIdx next : Nat) :
    List (Nat × Nat) → List (Option Nat) → List (Option Nat) →
    Option (Bool × List (Option Nat) × List (Option Nat))
  | [], dist, pred => some (false, dist, pred)
  | (step, w) :: rest, dist, pred =>
    if next = endIdx then some (true, dist, pred)
    else
      match distAt dist next with
      | none => none
      | some d =>
        let nw := d + w
        match distAt dist step with
        | some old =>
          if old ≤ nw then relaxEdges endIdx next rest dist pred
          else relaxEdges endIdx next rest (dist.set step (some nw)) (pred.set step (some next))
        | none => relaxEdges endIdx next rest (dist.set step (some nw)) (pred.set step (some next))

/-- The `'outer: while let Some(..) = remaining.iter()...min_by(..)` loop.
Each pass removes the selected node from `remaining`, so `remaining.length`
bounds the passes; the `0` fuel case coincides with the empty-`remaining`
exit. `none` propagates the aborting `?`. -/
def dijkstraLoop {T : Type} (g : Graph T Nat) (endIdx : Nat) :
    Nat → List Nat → List (Option Nat) → List (Option Nat) →
    Option (List (Option Nat) × List (Option Nat))
  | 0, _, dist, pred => some (dist, pred)
  | fuel + 1, remaining, dist, pred =>
    match minByAux dist remaining 0 none with
    | none => some (dist, pred)
    | some (pos, next) =>
      match relaxEdges endIdx next (g.edgesOf next) dist pred with
      | none => none
      | some (true, d2, p2) => some (d2, p2)
      | some (false, d2, p2) => dijkstraLoop g endIdx fuel (remaining.eraseIdx pos) d2 p2

/-- The reconstruction loop `while prev != start { path.push(prev);
prev = predecessors[prev]?; }` followed by `path.reverse()`. The
accumulator holds the pushed nodes most-recent first, so it is already the
reversed path. Fuel exhaustion (`none`) models a predecessor cycle, on
which the source would not terminate; `size + 1` fuel covers every
acyclic chain. -/
def reconstructPath (startIdx : Nat) (pred : List (Option Nat)) :
    Nat → Nat → List Nat → Option (List Nat)
  | 0, _, _ => none
  | fuel + 1, prev, acc =>
    if prev = startIdx then some acc
    else
      match pred.getD prev none with
      | none => none
      | some p => reconstructPath startIdx pred fuel p (prev :: acc)

/-- `Graph::dijkstras`, returning the index sequence of the produced `Path`
(`none` is Rust's `None`). -/
def Graph.dijkstras {T : Type} (g : Graph T Nat) (startIdx endIdx : Nat) :
    Option (List Nat) :=
  let dist := (List.replicate g.size (none : Option Nat)).set startIdx (some 0)
  let pred := List.replicate g.size (none : Option Nat)
  match dijkstraLoop g endIdx g.size (List.range g.size) dist pred with
  | none => none
  | some (_, p2) => reconstructPath startIdx p2 (g.size + 1) endIdx []

/-- The summation loop of `Path::len` once at least two entries remain:
adds the stored weight of each consecutive pair, `none` modelling the
index panic when a pair has no edge. -/
def pathLenAux {T : Type} (g : Graph T Nat) : List Nat → Nat → Option Nat
  | p0 :: p1 :: rest, acc =>
    match edgeLookup p1 (g.edgesOf p0) with
    | none => none
    | some w => pathLenAux g (p1 :: rest) (acc + w)
  | _, acc => some acc

/-- `Path::len`: `for i in 0..(self.path.len() - 1)` underflows on an empty
path (`0 - 1` on an unsigned length), so the empty case is a failure rather
than `E::default()`; a one-element path runs the loop zero times. -/
def Graph.pathLen {T : Type} (g : Graph T Nat) (path : List Nat) : Option Nat :=
  match path with
  | [] => none
  | _ => pathLenAux g path 0

/-! The traversal iterators. Both keep a worklist and a visited set; a
popped node's not-yet-visited neighbors are marked and added to the
worklist (marking happens at push time, and the start node is never
pre-marked). They differ only in where `pushAll`'s `ins` places a new
node: the depth-first stack pushes on top, the breadth-first queue appends
at the back. The yielded sequence is the list of popped nodes. -/

/-- The `for end in edges.keys()` loop shared by both iterators: walk the
keys in stored order, skipping visited ones, marking and inserting the
rest with `ins`. -/
def pushAll (ins : Nat → List Nat → List Nat) :
    List Nat → List Nat → Finset Nat → List Nat × Finset Nat
  | [], st, vis => (st, vis)
  | k :: ks, st, vis =>
    if k ∈ vis then pushAll ins ks st vis
    else pushAll ins ks (ins k st) (insert k vis)

/-- The full run of a traversal iterator from a worklist and visited set:
the list of yielded indices together with the final visited set. The fuel
`size + 1` used below dominates the worklist measure, so the run always
drains the worklist. -/
def traverseAux {T E : Type} (g : Graph T E) (ins : Nat → List Nat → List Nat) :
    Nat → List Nat → Finset Nat → List Nat × Finset Nat
  | 0, _, vis => ([], vis)
  | _ + 1, [], vis => ([], vis)
  | fuel + 1, idx :: rest, vis =>
    let p := pushAll ins (g.keysOf idx) rest vis
    let q := traverseAux g ins fuel p.1 p.2
    (idx :: q.1, q.2)

/-- A complete traversal from `start`: fresh worklist `[start]`, empty
visited set, and fuel `size + 1`, which dominates the worklist measure. -/
def traverseFrom {T E : Type} (g : Graph T E) (ins : Nat → List Nat → List Nat)
    (start : Nat) : List Nat × Finset Nat :=
  traverseAux g ins (g.size + 1) [start] ∅

/-- The sequence of indices `DepthFirst` yields from `start`: worklist is a
stack (`Vec::push`/`Vec::pop`), modelled head-first, so a new node is
consed on top. -/
def Graph.depthFirst {T E : Type} (g : Graph T E) (start : Nat) : List Nat :=
  (traverseFrom g (fun k st => k :: st) start).1

/-- The sequence of indices `BreadthFirst` yields from `start`: worklist is
a queue (`pop_front`/`push_back`), modelled head-first, so a new node is
appended at the back. -/
def Graph.breadthFirst {T E : Type} (g : Graph T E) (start : Nat) : List Nat :=
  (traverseFrom g (fun k st => st ++ [k]) start).1

/-! Concrete graphs used by the counterexamples and evaluations. -/

/-- The graph of the repository's reference test `tests/weighted.rs`:
payloads `A`, `B`, `C` in that order, undirected weighted edges
`A–C = 3`, `A–B = 1`, `B–C = 1`. -/
def testGraph : Graph Char Nat :=
  ⟨[⟨'A', [(1, 1), (2, 3)]⟩, ⟨'B', [(0, 1), (2, 1)]⟩, ⟨'C', [(0, 3), (1, 1)]⟩]⟩

/-- The same graph built through the API exactly as the test's `make_graph`
does (insert `A`, `B`, `C`; connect `A–C = 3`, `A–B = 1`, `B–C = 1`). -/
def testGraphBuilt : Option (Graph Char Nat) :=
  let g0 : Graph Char Nat := ⟨[]⟩
  let i1 := g0.insertNode 'A'
  let i2 := i1.1.insertNode 'B'
  let i3 := i2.1.insertNode 'C'
  (i3.1.connect_undirected_weighted i1.2 i3.2 3).bind fun g4 =>
  (g4.connect_undirected_weighted i1.2 i2.2 1).bind fun g5 =>
  g5.connect_undirected_weighted i2.2 i3.2 1

/-- Three nodes: an edge `0 → 1`, node `1` without out-edges, and an
unreachable node `2` with an edge back to `0`. -/
def strayGraph : Graph Unit Nat :=
  ⟨[⟨(), [(1, 1)]⟩, ⟨(), []⟩, ⟨(), [(0, 1)]⟩]⟩

/-- Two nodes forming a directed cycle `0 → 1 → 0`. -/
def cycleGraph : Graph Unit Unit :=
  ⟨[⟨(), [(1, ())]⟩, ⟨(), [(0, ())]⟩]⟩

/-- A single isolated node with no edges. -/
def oneNodeGraph : Graph Unit Nat :=
  ⟨[⟨(), []⟩]⟩

/-- Two isolated nodes with no edges. -/
def pairGraph : Graph Unit Nat :=
  ⟨[⟨(), []⟩, ⟨(), []⟩]⟩

/-- The empty graph (pool length zero). -/
def nullGraph : Graph Unit Unit :=
  ⟨[]⟩

/-- The key-list shadow of `btreeInsert`: how one insertion transforms the
sorted key sequence of a `BTreeMap`. -/
def keyInsert (k : Nat) : List Nat → List Nat
  | [] => [k]
  | k2 :: rest =>
    if k < k2 then k :: k2 :: rest
    else if k = k2 then k :: rest
    else k2 :: keyInsert k rest

/-! Helper lemmas about the association-list embedding of `BTreeMap`. -/

theorem edgeLookup_btreeInsert_self {E : Type} (k : Nat) (w : E) (l : List (Nat × E)) :
    edgeLookup k (btreeInsert k w l) = some w := by
  induction l with
  | nil => simp [btreeInsert, edgeLookup]
  | cons p rest ih =>
    obtain ⟨k2, w2⟩ := p
    by_cases h1 : k < k2
    · simp [btreeInsert, h1, edgeLookup]
    · by_cases h2 : k = k2
      · simp [btreeInsert, h1, h2, edgeLookup]
      · simp [btreeInsert, h1, h2, edgeLookup, Ne.symm h2, ih]

theorem edgeLookup_btreeInsert_other {E : Type} (k k3 : Nat) (w : E) (l : List (Nat × E))
    (h : k3 ≠ k) : edgeLookup k3 (btreeInsert k w l) = edgeLookup k3 l := by
  have hks : ¬ (k = k3) := Ne.symm h
  induction l with
  | nil => simp [btreeInsert, edgeLookup, hks]
  | cons p rest ih =>
    obtain ⟨k2, w2⟩ := p
    by_cases h1 : k < k2
    · simp [btreeInsert, h1, edgeLookup, hks]
    · by_cases h2 : k = k2
      · subst h2
        simp [btreeInsert, h1, edgeLookup, hks]
      · simp [btreeInsert, h1, h2, edgeLookup, ih]

theorem mem_keys_of_edgeLookup {E : Type} {k : Nat} {w : E} {l : List (Nat × E)}
    (h : edgeLookup k l = some w) : k ∈ l.map Prod.fst := by
  induction l with
  | nil => simp [edgeLookup] at h
  | cons p rest ih =>
    obtain ⟨k2, w2⟩ := p
    by_cases h2 : k2 = k
    · simp [h2]
    · simp only [edgeLookup, if_neg h2] at h
      simp only [List.map_cons, List.mem_cons]
      exact Or.inr (ih h)

theorem edgeLookup_eq_some_iff_mem_keys {E : Type} (k : Nat) (l : List (Nat × E)) :
    (∃ w, edgeLookup k l = some w) ↔ k ∈ l.map Prod.fst := by
  constructor
  · rintro ⟨w, hw⟩
    exact mem_keys_of_edgeLookup hw
  · intro hmem
    induction l with
    | nil => simp at hmem
    | cons p rest ih =>
      obtain ⟨k2, w2⟩ := p
      by_cases h2 : k2 = k
      · exact ⟨w2, by simp [edgeLookup, h2]⟩
      · simp only [edgeLookup, if_neg h2]
        apply ih
        simp only [List.map_cons, List.mem_cons] at hmem
        rcases hmem with h | h
        · exact absurd h.symm h2
        · exact h

theorem map_fst_btreeInsert {E : Type} (k : Nat) (w : E) (l : List (Nat × E)) :
    (btreeInsert k w l).map Prod.fst = keyInsert k (l.map Prod.fst) := by
  induction l with
  | nil => rfl
  | cons p rest ih =>
    obtain ⟨k2, w2⟩ := p
    by_cases h1 : k < k2
    · simp [btreeInsert, keyInsert, h1]
    · by_cases h2 : k = k2
      · simp [btreeInsert, keyInsert, h1, h2]
      · simp [btreeInsert, keyInsert, h1, h2, ih]

theorem mem_keyInsert (k : Nat) (ks : List Nat) (y : Nat) :
    y ∈ keyInsert k ks ↔ y = k ∨ y ∈ ks := by
  induction ks with
  | nil => simp [keyInsert]
  | cons k2 rest ih =>
    by_cases h1 : k < k2
    · simp [keyInsert, h1]
    · by_cases h2 : k = k2
      · subst h2
        simp [keyInsert, h1]
      · simp [keyInsert, h1, h2, ih]
        tauto

theorem pairwise_keyInsert (k : Nat) (ks : List Nat)
    (h : ks.Pairwise (· < ·)) : (keyInsert k ks).Pairwise (· < ·) := by
  induction ks with
  | nil => simp [keyInsert]
  | cons k2 rest ih =>
    rw [List.pairwise_cons] at h
    obtain ⟨hall, hrest⟩ := h
    by_cases h1 : k < k2
    · rw [keyInsert, if_pos h1]
      rw [List.pairwise_cons]
      refine ⟨?_, ?_⟩
      · intro y hy
        rcases List.mem_cons.mp hy with rfl | hy2
        · exact h1
        · exact h1.trans (hall y hy2)
      · rw [List.pairwise_cons]
        exact ⟨hall, hrest⟩
    · by_cases h2 : k = k2
      · subst h2
        rw [keyInsert, if_neg h1, if_pos rfl]
        rw [List.pairwise_cons]
        exact ⟨hall, hrest⟩
      · rw [keyInsert, if_neg h1, if_neg h2]
        rw [List.pairwise_cons]
        refine ⟨?_, ih hrest⟩
        intro y hy
        rcases (mem_keyInsert k rest y).mp hy with rfl | hy2
        · omega
        · exact hall y hy2

theorem count_keyInsert_self (k : Nat) (ks : List Nat)
    (h : ks.Pairwise (· < ·)) : (keyInsert k ks).count k = 1 := by
  have hp := pairwise_keyInsert k ks h
  have hnd : (keyInsert k ks).Nodup := hp.imp Nat.ne_of_lt
  have hmem : k ∈ keyInsert k ks := (mem_keyInsert k ks k).mpr (Or.inl rfl)
  exact List.count_eq_one_of_mem hnd hmem

/-! Helper lemmas about `listModify`. -/

theorem listModify_length {α : Type} (f : α → α) (i : Nat) (l : List α) :
    (listModify f i l).length = l.length := by
  induction l generalizing i with
  | nil => cases i <;> rfl
  | cons a rest ih =>
    cases i with
    | zero => rfl
    | succ n => simp [listModify, ih]

theorem getElem?_listModify {α : Type} (f : α → α) (i j : Nat) (l : List α) :
    (listModify f i l)[j]? = if j = i then (l[j]?).map f else l[j]? := by
  induction l generalizing i j with
  | nil => cases i <;> simp [listModify]
  | cons a rest ih =>
    cases i with
    | zero =>
      cases j with
      | zero => simp [listModify]
      | succ m => simp [listModify]
    | succ n =>
      cases j with
      | zero => simp [listModify]
      | succ m =>
        simp only [listModify, List.getElem?_cons_succ]
        rw [ih]
        by_cases hj : m = n <;> simp [hj]

theorem connect_weighted_spec {T E : Type} {g g2 : Graph T E} {s e : Nat} {w : E}
    (h : g.connect_weighted s e w = some g2) :
    s < g.size ∧ e < g.size ∧ g2.size = g.size ∧
    g2.edgesOf s = btreeInsert e w (g.edgesOf s) ∧
    ∀ j, j ≠ s → g2.edgesOf j = g.edgesOf j := by
  unfold Graph.connect_weighted at h
  split_ifs at h with hc
  · obtain ⟨hs, he⟩ := hc
    obtain rfl : (⟨listModify (fun a => ⟨a.value, btreeInsert e w a.edges⟩) s g.nodes⟩ :
        Graph T E) = g2 := by injection h
    refine ⟨hs, he, ?_, ?_, ?_⟩
    · simp [Graph.size, listModify_length]
    · unfold Graph.edgesOf
      show (match (listModify _ s g.nodes)[s]? with
        | some a => a.edges | none => []) = _
      rw [getElem?_listModify, if_pos rfl]
      rw [List.getElem?_eq_getElem hs]
      rfl
    · intro j hj
      unfold Graph.edgesOf
      show (match (listModify _ s g.nodes)[j]? with
        | some a => a.edges | none => []) = _
      rw [getElem?_listModify, if_neg hj]

/-- The test graph built through the API equals its literal pool: inserting
`A`, `B`, `C` and connecting `A–C = 3`, `A–B = 1`, `B–C = 1` yields exactly
the sorted adjacency lists of `testGraph`. -/
theorem testGraphBuilt_eq : testGraphBuilt = some testGraph := rfl

/-- C1: the claim fails on the code. At the reference test's own graph,
`dijkstras(A, C)` succeeds but returns the index sequence `[1, 2]`
(`B`, `C`): the reconstruction loop `while prev != start` stops *before*
pushing `start`, so the returned path does not begin with the start node,
contradicting the spec sentence and the repository's own test. -/
theorem dijkstras_path_omits_start :
    testGraph.dijkstras 0 2 = some [1, 2] ∧
    testGraph.valueAt 0 = some 'A' ∧ testGraph.valueAt 2 = some 'C' ∧
    List.head? [1, 2] ≠ some 0 := by
  refine ⟨by decide, rfl, rfl, by decide⟩

/-- C2: the claim fails on the code. In `strayGraph`, node `1` is reachable
from node `0` through the edge `0 → 1`, yet `dijkstras 0 1` returns
nothing: after all reachable nodes are settled, the unreachable node `2`
(with an out-edge) is selected, and `distance[next].clone()?` aborts the
whole call. -/
theorem dijkstras_none_though_reachable :
    strayGraph.dijkstras 0 1 = none ∧ strayGraph.Reach 0 1 :=
  ⟨by decide, Relation.ReflTransGen.single (by decide)⟩

/-- C4: the claim fails on the code. On the reference test's graph the
call returns the path `[1, 2]` (payloads `B`, `C`), not `A, B, C`, and its
`len()` is `1`, not `2` — the repository's own test `test_dijkstras`
asserts the opposite and fails. -/
theorem dijkstras_test_scenario_fails :
    testGraphBuilt = some testGraph ∧
    testGraph.dijkstras 0 2 = some [1, 2] ∧
    testGraph.pathLen [1, 2] = some 1 ∧
    testGraph.valueAt 1 = some 'B' ∧ testGraph.valueAt 2 = some 'C' := by
  refine ⟨rfl, by decide, by decide, rfl, rfl⟩

/-- C8: `connect_weighted`, `weak_ref` and `weak_mut` signal a contract
violation (modelled as `none`) exactly when a supplied index is at least
the pool length; with all indices in bounds none of them fails. -/
theorem bounds_contract {T E : Type} (g : Graph T E) (s e i : Nat) (w : E) :
    ((g.connect_weighted s e w).isNone ↔ (g.size ≤ s ∨ g.size ≤ e)) ∧
    ((g.weak_ref i).isNone ↔ g.size ≤ i) ∧
    ((g.weak_mut i).isNone ↔ g.size ≤ i) := by
  unfold Graph.connect_weighted Graph.weak_ref Graph.weak_mut
  refine ⟨?_, ?_, ?_⟩ <;> split_ifs with h
  all_goals simp_all
  all_goals omega

/-- C9 counterexample: on the empty graph, `arbitrary_node` does *not* fail
at the point of the call — the source is a check-free `const fn` — it
returns the index-0 handle. -/
theorem arbitrary_node_returns_handle_on_empty :
    nullGraph.size = 0 ∧ nullGraph.arbitrary_node = some 0 ∧
    nullGraph.arbitrary_node ≠ none :=
  ⟨rfl, rfl, by simp [Graph.arbitrary_node]⟩

/-- C9 amended: on an empty graph `arbitrary_node` still returns the
index-0 handle; the contract violation surfaces only when the handle is
used, e.g. dereferencing its payload fails. -/
theorem arbitrary_node_defers_violation {T E : Type} (g : Graph T E)
    (h : g.size = 0) :
    g.arbitrary_node = some 0 ∧ g.valueAt 0 = none := by
  refine ⟨rfl, ?_⟩
  unfold Graph.valueAt
  rw [List.getElem?_eq_none]
  · rfl
  · unfold Graph.size at h
    omega

/-- C9 witness: the amended statement at the concrete empty graph. -/
theorem arbitrary_node_defers_violation_witness :
    nullGraph.arbitrary_node = some 0 ∧ nullGraph.valueAt 0 = none :=
  arbitrary_node_defers_violation nullGraph rfl

/-- C10: `Path::len` on the empty index sequence (what `dijkstras` returns
when start equals end, as on `oneNodeGraph`) is not total — the loop bound
`0 - 1` underflows — while on any one-element path the loop body never
runs and the default weight `0` is returned. -/
theorem pathLen_empty_fails_singleton_zero {T : Type} (g : Graph T Nat) (i : Nat) :
    g.pathLen [] = none ∧ g.pathLen [i] = some 0 ∧
    oneNodeGraph.dijkstras 0 0 = some [] :=
  ⟨rfl, rfl, by decide⟩

/-- C5: connecting the same ordered pair twice keeps exactly one directed
edge `start → end`, carrying the second weight — `BTreeMap::insert`
overwrites instead of creating a parallel edge. -/
theorem connect_weighted_overwrites {T E : Type} (g : Graph T E) (s e : Nat)
    (w1 w2 : E) (hWF : g.WF) (hs : s < g.size) (he : e < g.size) :
    ∃ g1 g2, g.connect_weighted s e w1 = some g1 ∧
      g1.connect_weighted s e w2 = some g2 ∧
      edgeLookup e (g2.edgesOf s) = some w2 ∧
      (g2.keysOf s).count e = 1 := by
  have h1 : g.connect_weighted s e w1 =
      some ⟨listModify (fun a => ⟨a.value, btreeInsert e w1 a.edges⟩) s g.nodes⟩ := by
    unfold Graph.connect_weighted
    rw [if_pos ⟨hs, he⟩]
  obtain ⟨g1, hg1⟩ : ∃ g1, g.connect_weighted s e w1 = some g1 := ⟨_, h1⟩
  obtain ⟨_, _, hsize1, hedges1, _⟩ := connect_weighted_spec hg1
  have h2 : g1.connect_weighted s e w2 =
      some ⟨listModify (fun a => ⟨a.value, btreeInsert e w2 a.edges⟩) s g1.nodes⟩ := by
    unfold Graph.connect_weighted
    rw [if_pos ⟨by omega, by omega⟩]
  obtain ⟨g2, hg2⟩ : ∃ g2, g1.connect_weighted s e w2 = some g2 := ⟨_, h2⟩
  obtain ⟨_, _, _, hedges2, _⟩ := connect_weighted_spec hg2
  refine ⟨g1, g2, hg1, hg2, ?_, ?_⟩
  · rw [hedges2]
    exact edgeLookup_btreeInsert_self e w2 _
  · have hsorted : (g.keysOf s).Pairwise (· < ·) := by
      unfold Graph.keysOf Graph.edgesOf
      match hnode : g.nodes[s]? with
      | some a =>
        have ha : a ∈ g.nodes := by
          obtain ⟨hlt, rfl⟩ := List.getElem?_eq_some.mp hnode
          exact List.getElem_mem hlt
        exact (hWF a ha).1
      | none => exact List.Pairwise.nil
    unfold Graph.keysOf
    rw [hedges2, map_fst_btreeInsert]
    apply count_keyInsert_self
    rw [hedges1, map_fst_btreeInsert]
    apply pairwise_keyInsert
    exact hsorted

/-- C5 witness: both connects succeed on the two-node graph and the second
weight wins with a single stored edge. -/
theorem connect_weighted_overwrites_witness :
    pairGraph.WF ∧ 0 < pairGraph.size ∧ 1 < pairGraph.size ∧
    (∃ g1 g2, pairGraph.connect_weighted 0 1 3 = some g1 ∧
      g1.connect_weighted 0 1 7 = some g2 ∧
      edgeLookup 1 (g2.edgesOf 0) = some 7 ∧
      (g2.keysOf 0).count 1 = 1) :=
  ⟨by decide, by decide, by decide,
    connect_weighted_overwrites pairGraph 0 1 3 7 (by decide) (by decide) (by decide)⟩

/-- C6: `connect_undirected_weighted` is the directed connect applied in
both directions; afterwards both directed edges exist with the same
weight, and the `Neighbors` key sequences of either endpoint contain the
other. -/
theorem connect_undirected_weighted_spec {T E : Type} (g : Graph T E) (s e : Nat)
    (w : E) (hs : s < g.size) (he : e < g.size) :
    g.connect_undirected_weighted s e w =
      ((g.connect_weighted s e w).bind fun g2 => g2.connect_weighted e s w) ∧
    ∃ g2, g.connect_undirected_weighted s e w = some g2 ∧
      edgeLookup e (g2.edgesOf s) = some w ∧
      edgeLookup s (g2.edgesOf e) = some w ∧
      e ∈ g2.keysOf s ∧ s ∈ g2.keysOf e := by
  refine ⟨rfl, ?_⟩
  obtain ⟨g1, hg1⟩ : ∃ g1, g.connect_weighted s e w = some g1 := by
    unfold Graph.connect_weighted
    rw [if_pos ⟨hs, he⟩]
    exact ⟨_, rfl⟩
  obtain ⟨_, _, hsize1, hedges1s, hother1⟩ := connect_weighted_spec hg1
  obtain ⟨g2, hg2⟩ : ∃ g2, g1.connect_weighted e s w = some g2 := by
    unfold Graph.connect_weighted
    rw [if_pos ⟨by omega, by omega⟩]
    exact ⟨_, rfl⟩
  obtain ⟨_, _, hsize2, hedges2e, hother2⟩ := connect_weighted_spec hg2
  have hcomb : g.connect_undirected_weighted s e w = some g2 := by
    unfold Graph.connect_undirected_weighted
    rw [hg1]
    exact hg2
  have hlookse : edgeLookup e (g2.edgesOf s) = some w := by
    by_cases hse : s = e
    · subst hse
      rw [hedges2e, hedges1s]
      exact edgeLookup_btreeInsert_self s w _
    · rw [hother2 s hse, hedges1s]
      exact edgeLookup_btreeInsert_self e w _
  have hlookes : edgeLookup s (g2.edgesOf e) = some w := by
    rw [hedges2e]
    exact edgeLookup_btreeInsert_self s w _
  exact ⟨g2, hcomb, hlookse, hlookes,
    mem_keys_of_edgeLookup hlookse, mem_keys_of_edgeLookup hlookes⟩

/-- C6 witness: the undirected connect on the two-node graph produces both
directed edges with the shared weight. -/
theorem connect_undirected_weighted_spec_witness :
    0 < pairGraph.size ∧ 1 < pairGraph.size ∧
    (pairGraph.connect_undirected_weighted 0 1 5 =
      ((pairGraph.connect_weighted 0 1 5).bind fun g2 => g2.connect_weighted 1 0 5) ∧
    ∃ g2, pairGraph.connect_undirected_weighted 0 1 5 = some g2 ∧
      edgeLookup 1 (g2.edgesOf 0) = some 5 ∧
      edgeLookup 0 (g2.edgesOf 1) = some 5 ∧
      (1 : Nat) ∈ g2.keysOf 0 ∧ (0 : Nat) ∈ g2.keysOf 1) :=
  ⟨by decide, by decide,
    connect_undirected_weighted_spec pairGraph 0 1 5 (by decide) (by decide)⟩

/-- C7: the `Neighbors` iterator of a node yields exactly the destinations
of its out-edges — a destination appears exactly when the edge is stored,
each exactly once — in strictly ascending index order. -/
theorem neighbors_ascending {T E : Type} (g : Graph T E) (i : Nat)
    (hWF : g.WF) (_hi : i < g.size) :
    (g.keysOf i).Pairwise (· < ·) ∧
    (∀ j, j ∈ g.keysOf i ↔ ∃ w, edgeLookup j (g.edgesOf i) = some w) ∧
    (∀ j ∈ g.keysOf i, (g.keysOf i).count j = 1) := by
  have hsorted : (g.keysOf i).Pairwise (· < ·) := by
    unfold Graph.keysOf Graph.edgesOf
    match hnode : g.nodes[i]? with
    | some a =>
      have ha : a ∈ g.nodes := by
        obtain ⟨hlt, rfl⟩ := List.getElem?_eq_some.mp hnode
        exact List.getElem_mem hlt
      exact (hWF a ha).1
    | none => exact List.Pairwise.nil
  refine ⟨hsorted, ?_, ?_⟩
  · intro j
    exact (edgeLookup_eq_some_iff_mem_keys j (g.edgesOf i)).symm
  · intro j hj
    have hnd : (g.keysOf i).Nodup := hsorted.imp Nat.ne_of_lt
    exact List.count_eq_one_of_mem hnd hj

/-- C7 witness: the neighbor sequence of node 0 of the test graph. -/
theorem neighbors_ascending_witness :
    testGraph.WF ∧ 0 < testGraph.size ∧
    ((testGraph.keysOf 0).Pairwise (· < ·) ∧
    (∀ j, j ∈ testGraph.keysOf 0 ↔ ∃ w, edgeLookup j (testGraph.edgesOf 0) = some w) ∧
    (∀ j ∈ testGraph.keysOf 0, (testGraph.keysOf 0).count j = 1)) :=
  ⟨by decide, by decide, neighbors_ascending testGraph 0 (by decide) (by decide)⟩

/-! Lemmas about the traversal worklist loop. `ins` is abstract subject to
two laws (satisfied by the stack's cons and the queue's append): inserting
adds one occurrence of the new node and one to the length. -/

theorem pushAll_vis_mem (ins : Nat → List Nat → List Nat) (ks st : List Nat)
    (vis : Finset Nat) (x : Nat) :
    x ∈ (pushAll ins ks st vis).2 ↔ x ∈ vis ∨ x ∈ ks := by
  induction ks generalizing st vis with
  | nil => simp [pushAll]
  | cons k rest ih =>
    by_cases hk : k ∈ vis
    · rw [pushAll, if_pos hk, ih]
      simp only [List.mem_cons]
      constructor
      · tauto
      · rintro (h | rfl | h)
        · exact Or.inl h
        · exact Or.inl hk
        · exact Or.inr h
    · rw [pushAll, if_neg hk, ih]
      simp only [Finset.mem_insert, List.mem_cons]
      tauto

theorem pushAll_count (ins : Nat → List Nat → List Nat)
    (hins1 : ∀ k st x, (ins k st).count x = st.count x + if x = k then 1 else 0)
    (ks st : List Nat) (vis : Finset Nat) (x : Nat) :
    (pushAll ins ks st vis).1.count x =
      st.count x + if x ∈ ks ∧ x ∉ vis then 1 else 0 := by
  induction ks generalizing st vis with
  | nil => simp [pushAll]
  | cons k rest ih =>
    by_cases hk : k ∈ vis
    · rw [pushAll, if_pos hk, ih]
      by_cases hxv : x ∈ vis
      · simp [hxv]
      · by_cases hxk : x = k
        · exact absurd (hxk ▸ hk) hxv
        · simp [hxv, hxk, List.mem_cons]
    · rw [pushAll, if_neg hk, ih, hins1]
      by_cases hxk : x = k
      · subst hxk
        simp [hk, Finset.mem_insert]
      · simp only [Finset.mem_insert, List.mem_cons, if_neg hxk]
        by_cases hxv : x ∈ vis
        · simp [hxv, hxk]
        · simp [hxv, hxk]

theorem pushAll_card (ins : Nat → List Nat → List Nat)
    (hins2 : ∀ k st, (ins k st).length = st.length + 1)
    (ks st : List Nat) (vis : Finset Nat) :
    (pushAll ins ks st vis).1.length + vis.card =
      st.length + (pushAll ins ks st vis).2.card := by
  induction ks generalizing st vis with
  | nil => simp [pushAll]
  | cons k rest ih =>
    by_cases hk : k ∈ vis
    · rw [pushAll, if_pos hk]
      exact ih st vis
    · rw [pushAll, if_neg hk]
      have h := ih (ins k st) (insert k vis)
      rw [Finset.card_insert_of_not_mem hk, hins2] at h
      omega

theorem pushAll_worklist_mem (ins : Nat → List Nat → List Nat)
    (hins1 : ∀ k st x, (ins k st).count x = st.count x + if x = k then 1 else 0)
    (ks st : List Nat) (vis : Finset Nat) (x : Nat)
    (h : x ∈ (pushAll ins ks st vis).1) : x ∈ st ∨ x ∈ ks := by
  by_contra hc
  push_neg at hc
  obtain ⟨hst, hks⟩ := hc
  have h1 := pushAll_count ins hins1 ks st vis x
  rw [if_neg (fun hh => hks hh.1)] at h1
  have h2 : st.count x = 0 := List.count_eq_zero.mpr hst
  have h3 : 0 < (pushAll ins ks st vis).1.count x := List.count_pos_iff.mpr h
  omega

theorem traverseAux_zero {T E : Type} (g : Graph T E) (ins : Nat → List Nat → List Nat)
    (st : List Nat) (vis : Finset Nat) : traverseAux g ins 0 st vis = ([], vis) := rfl

theorem traverseAux_nil {T E : Type} (g : Graph T E) (ins : Nat → List Nat → List Nat)
    (fuel : Nat) (vis : Finset Nat) : traverseAux g ins (fuel + 1) [] vis = ([], vis) := rfl

theorem traverseAux_cons {T E : Type} (g : Graph T E) (ins : Nat → List Nat → List Nat)
    (fuel idx : Nat) (rest : List Nat) (vis : Finset Nat) :
    traverseAux g ins (fuel + 1) (idx :: rest) vis =
      (idx :: (traverseAux g ins fuel (pushAll ins (g.keysOf idx) rest vis).1
          (pushAll ins (g.keysOf idx) rest vis).2).1,
        (traverseAux g ins fuel (pushAll ins (g.keysOf idx) rest vis).1
          (pushAll ins (g.keysOf idx) rest vis).2).2) := rfl

theorem traverseAux_vis_mono {T E : Type} (g : Graph T E) (ins : Nat → List Nat → List Nat) :
    ∀ fuel (st : List Nat) (vis : Finset Nat) (x : Nat),
      x ∈ vis → x ∈ (traverseAux g ins fuel st vis).2 := by
  intro fuel
  induction fuel with
  | zero =>
    intro st vis x h
    rw [traverseAux_zero]
    exact h
  | succ n ih =>
    intro st vis x h
    cases st with
    | nil =>
      rw [traverseAux_nil]
      exact h
    | cons idx rest =>
      rw [traverseAux_cons]
      exact ih _ _ x ((pushAll_vis_mem ins (g.keysOf idx) rest vis x).mpr (Or.inl h))

theorem keysOf_lt_of_WF {T E : Type} (g : Graph T E) (hWF : g.WF) (i k : Nat)
    (h : k ∈ g.keysOf i) : k < g.size := by
  unfold Graph.keysOf Graph.edgesOf at h
  cases hnode : g.nodes[i]? with
  | none => rw [hnode] at h; simp at h
  | some a =>
    rw [hnode] at h
    have ha : a ∈ g.nodes := by
      obtain ⟨hlt, rfl⟩ := List.getElem?_eq_some.mp hnode
      exact List.getElem_mem hlt
    obtain ⟨p, hp, rfl⟩ := List.mem_map.mp h
    exact (hWF a ha).2 p hp

theorem traverseAux_count {T E : Type} (g : Graph T E) (ins : Nat → List Nat → List Nat)
    (hins1 : ∀ k st x, (ins k st).count x = st.count x + if x = k then 1 else 0)
    (hins2 : ∀ k st, (ins k st).length = st.length + 1) (hWF : g.WF) :
    ∀ fuel (st : List Nat) (vis : Finset Nat) (x : Nat),
      (∀ v ∈ vis, v < g.size) →
      st.length + (g.size - vis.card) ≤ fuel →
      (traverseAux g ins fuel st vis).1.count x =
        st.count x + if x ∈ (traverseAux g ins fuel st vis).2 ∧ x ∉ vis then 1 else 0 := by
  intro fuel
  induction fuel with
  | zero =>
    intro st vis x hvis hfuel
    have hlen : st.length = 0 := by omega
    obtain rfl : st = [] := List.length_eq_zero.mp hlen
    rw [traverseAux_zero]
    simp
  | succ n ih =>
    intro st vis x hvis hfuel
    cases st with
    | nil =>
      rw [traverseAux_nil]
      simp
    | cons idx rest =>
      rw [traverseAux_cons]
      rcases hpe : pushAll ins (g.keysOf idx) rest vis with ⟨st2, vis2⟩
      have hmem2 : ∀ y, y ∈ vis2 ↔ y ∈ vis ∨ y ∈ g.keysOf idx := by
        intro y
        have := pushAll_vis_mem ins (g.keysOf idx) rest vis y
        rw [hpe] at this
        exact this
      have hvis2 : ∀ v ∈ vis2, v < g.size := by
        intro v hv
        rcases (hmem2 v).mp hv with h | h
        · exact hvis v h
        · exact keysOf_lt_of_WF g hWF idx v h
      have hcard : st2.length + vis.card = rest.length + vis2.card := by
        have h := pushAll_card ins hins2 (g.keysOf idx) rest vis
        rw [hpe] at h
        exact h
      have hvsub : vis ⊆ vis2 := fun v hv => (hmem2 v).mpr (Or.inl hv)
      have hvc : vis.card ≤ vis2.card := Finset.card_le_card hvsub
      have hv2n : vis2.card ≤ g.size := by
        have hsub : vis2 ⊆ Finset.range g.size :=
          fun v hv => Finset.mem_range.mpr (hvis2 v hv)
        have := Finset.card_le_card hsub
        simpa using this
      have hfuel2 : st2.length + (g.size - vis2.card) ≤ n := by
        simp only [List.length_cons] at hfuel
        omega
      have ihh := ih st2 vis2 x hvis2 hfuel2
      have hcnt := pushAll_count ins hins1 (g.keysOf idx) rest vis x
      rw [hpe] at hcnt
      dsimp only at hcnt ⊢
      simp only [List.count_cons, ihh, hcnt]
      by_cases hk : x ∈ g.keysOf idx ∧ x ∉ vis
      · have hxv2 : x ∈ vis2 := (hmem2 x).mpr (Or.inr hk.1)
        have hxfin : x ∈ (traverseAux g ins n st2 vis2).2 :=
          traverseAux_vis_mono g ins n st2 vis2 x hxv2
        simp [hk, hxv2, hxfin, hk.2]
        omega
      · have hiff : x ∈ vis2 ↔ x ∈ vis := by
          rw [hmem2]
          constructor
          · rintro (h | h)
            · exact h
            · by_contra hv
              exact hk ⟨h, hv⟩
          · exact Or.inl
        by_cases hxv : x ∈ vis
        · simp [hk, hxv, hiff.mpr hxv]
        · have hxv2 : x ∉ vis2 := fun h => hxv (hiff.mp h)
          have hxk : x ∉ g.keysOf idx := fun h => hk ⟨h, hxv⟩
          simp [hk, hxv, hxv2, hxk]
          omega

theorem traverseAux_closed {T E : Type} (g : Graph T E) (ins : Nat → List Nat → List Nat) :
    ∀ fuel (st : List Nat) (vis : Finset Nat) (u k : Nat),
      u ∈ (traverseAux g ins fuel st vis).1 → k ∈ g.keysOf u →
      k ∈ (traverseAux g ins fuel st vis).2 := by
  intro fuel
  induction fuel with
  | zero =>
    intro st vis u k hu _
    rw [traverseAux_zero] at hu
    simp at hu
  | succ n ih =>
    intro st vis u k hu hk
    cases st with
    | nil =>
      rw [traverseAux_nil] at hu
      simp at hu
    | cons idx rest =>
      rw [traverseAux_cons] at hu ⊢
      rcases List.mem_cons.mp hu with rfl | hu2
      · apply traverseAux_vis_mono
        rw [pushAll_vis_mem]
        exact Or.inr hk
      · exact ih _ _ u k hu2 hk

theorem traverseAux_sound {T E : Type} (g : Graph T E) (ins : Nat → List Nat → List Nat)
    (hins1 : ∀ k st x, (ins k st).count x = st.count x + if x = k then 1 else 0)
    (R : Nat → Prop) (hR : ∀ a b, R a → g.EdgeTo a b → R b) :
    ∀ fuel (st : List Nat) (vis : Finset Nat),
      (∀ v ∈ st, R v) → (∀ v ∈ vis, R v) →
      (∀ x ∈ (traverseAux g ins fuel st vis).1, R x) ∧
      (∀ x ∈ (traverseAux g ins fuel st vis).2, R x) := by
  intro fuel
  induction fuel with
  | zero =>
    intro st vis hst hvis
    rw [traverseAux_zero]
    exact ⟨by simp, hvis⟩
  | succ n ih =>
    intro st vis hst hvis
    cases st with
    | nil =>
      rw [traverseAux_nil]
      exact ⟨by simp, hvis⟩
    | cons idx rest =>
      rw [traverseAux_cons]
      have hidx : R idx := hst idx (List.mem_cons_self idx rest)
      have hst2 : ∀ v ∈ (pushAll ins (g.keysOf idx) rest vis).1, R v := by
        intro v hv
        rcases pushAll_worklist_mem ins hins1 (g.keysOf idx) rest vis v hv with h | h
        · exact hst v (List.mem_cons_of_mem idx h)
        · exact hR idx v hidx h
      have hvis2 : ∀ v ∈ (pushAll ins (g.keysOf idx) rest vis).2, R v := by
        intro v hv
        rcases (pushAll_vis_mem ins (g.keysOf idx) rest vis v).mp hv with h | h
        · exact hvis v h
        · exact hR idx v hidx h
      obtain ⟨ho, hf⟩ := ih _ _ hst2 hvis2
      refine ⟨?_, hf⟩
      intro y hy
      rcases List.mem_cons.mp hy with rfl | hy2
      · exact hidx
      · exact ho y hy2

/-- The combined behaviour of a full traversal run, for any worklist
discipline satisfying the two insertion laws: reachable nodes are all
yielded, unreachable nodes never, non-start nodes at most once, and the
start node once or twice. -/
theorem traverse_main {T E : Type} (g : Graph T E) (ins : Nat → List Nat → List Nat)
    (hins1 : ∀ k st x, (ins k st).count x = st.count x + if x = k then 1 else 0)
    (hins2 : ∀ k st, (ins k st).length = st.length + 1)
    (hWF : g.WF) (start : Nat) :
    (∀ x, g.Reach start x → x ∈ (traverseFrom g ins start).1) ∧
    (∀ x, ¬ g.Reach start x → x ∉ (traverseFrom g ins start).1) ∧
    (∀ x, x ≠ start → (traverseFrom g ins start).1.count x ≤ 1) ∧
    1 ≤ (traverseFrom g ins start).1.count start ∧
    (traverseFrom g ins start).1.count start ≤ 2 := by
  have hvis0 : ∀ v ∈ (∅ : Finset Nat), v < g.size := by simp
  have hfuel0 : [start].length + (g.size - (∅ : Finset Nat).card) ≤ g.size + 1 := by
    simp
    omega
  have hcount : ∀ x, (traverseFrom g ins start).1.count x =
      [start].count x + if x ∈ (traverseFrom g ins start).2 then 1 else 0 := by
    intro x
    have h := traverseAux_count g ins hins1 hins2 hWF (g.size + 1) [start] ∅ x hvis0 hfuel0
    simpa [traverseFrom] using h
  have hsound := traverseAux_sound g ins hins1 (g.Reach start)
    (fun a b ha hab => Relation.ReflTransGen.tail ha hab) (g.size + 1) [start] ∅
    (by
      intro v hv
      rcases List.mem_cons.mp hv with rfl | hv2
      · exact Relation.ReflTransGen.refl
      · simp at hv2)
    (by simp)
  have hcount_single : ∀ x, [start].count x = if x = start then 1 else 0 := by
    intro x
    by_cases h : x = start <;> simp [h, List.count_cons]
  have hcomp : ∀ x, g.Reach start x → x ∈ (traverseFrom g ins start).1 := by
    intro x hx
    induction hx with
    | refl =>
      apply List.count_pos_iff.mp
      rw [hcount start, hcount_single]
      simp
    | tail hsteps hedge ihm =>
      rename_i b z
      apply List.count_pos_iff.mp
      rw [hcount z]
      have hcfin : z ∈ (traverseFrom g ins start).2 :=
        traverseAux_closed g ins (g.size + 1) [start] ∅ b z ihm hedge
      rw [if_pos hcfin]
      omega
  have hfinR : ∀ x ∈ (traverseFrom g ins start).2, g.Reach start x :=
    fun x hx => hsound.2 x hx
  refine ⟨hcomp, ?_, ?_, ?_, ?_⟩
  · intro x hnx hmem
    exact hnx (hsound.1 x hmem)
  · intro x hxs
    rw [hcount x, hcount_single, if_neg hxs]
    by_cases h : x ∈ (traverseFrom g ins start).2 <;> simp [h]
  · rw [hcount start, hcount_single, if_pos rfl]
    omega
  · rw [hcount start, hcount_single, if_pos rfl]
    by_cases h : start ∈ (traverseFrom g ins start).2 <;> simp [h]

theorem consIns_count (k : Nat) (st : List Nat) (x : Nat) :
    ((fun k st => k :: st) k st : List Nat).count x =
      st.count x + if x = k then 1 else 0 := by
  by_cases h : x = k <;> simp [List.count_cons, h]

theorem consIns_length (k : Nat) (st : List Nat) :
    ((fun k st => k :: st) k st : List Nat).length = st.length + 1 := rfl

theorem appendIns_count (k : Nat) (st : List Nat) (x : Nat) :
    ((fun k st => st ++ [k]) k st : List Nat).count x =
      st.count x + if x = k then 1 else 0 := by
  by_cases h : x = k <;> simp [List.count_append, List.count_cons, h]

theorem appendIns_length (k : Nat) (st : List Nat) :
    ((fun k st => st ++ [k]) k st : List Nat).length = st.length + 1 := by
  simp

/-- C3 counterexample: on the two-node cycle `0 → 1 → 0`, both traversals
from node 0 yield `[0, 1, 0]` — the start node, reachable from itself, is
yielded twice, because it is never marked visited before being yielded and
the cycle pushes it again. -/
theorem traversal_start_yielded_twice :
    cycleGraph.depthFirst 0 = [0, 1, 0] ∧ cycleGraph.breadthFirst 0 = [0, 1, 0] ∧
    (cycleGraph.depthFirst 0).count 0 = 2 ∧ (cycleGraph.breadthFirst 0).count 0 = 2 ∧
    cycleGraph.Reach 0 0 :=
  ⟨by decide, by decide, by decide, by decide, Relation.ReflTransGen.refl⟩

/-- C3 amended: depth-first and breadth-first traversal from a node yield
every reachable node and never an unreachable one; every node other than
the start is yielded exactly once; the start is yielded at least once and
at most twice (twice exactly when a cycle leads back to it, as the
counterexample shows). -/
theorem traversal_visits_reachable {T E : Type} (g : Graph T E) (start : Nat)
    (hWF : g.WF) (_hs : start < g.size) (x : Nat) :
    (g.Reach start x → x ∈ g.depthFirst start ∧ x ∈ g.breadthFirst start) ∧
    (¬ g.Reach start x → x ∉ g.depthFirst start ∧ x ∉ g.breadthFirst start) ∧
    (x ≠ start → g.Reach start x →
      (g.depthFirst start).count x = 1 ∧ (g.breadthFirst start).count x = 1) ∧
    (1 ≤ (g.depthFirst start).count start ∧ (g.depthFirst start).count start ≤ 2 ∧
      1 ≤ (g.breadthFirst start).count start ∧ (g.breadthFirst start).count start ≤ 2) := by
  obtain ⟨d1, d2, d3, d4, d5⟩ :=
    traverse_main g (fun k st => k :: st) consIns_count consIns_length hWF start
  obtain ⟨b1, b2, b3, b4, b5⟩ :=
    traverse_main g (fun k st => st ++ [k]) appendIns_count appendIns_length hWF start
  refine ⟨fun hr => ⟨d1 x hr, b1 x hr⟩, fun hnr => ⟨d2 x hnr, b2 x hnr⟩, ?_, d4, d5, b4, b5⟩
  intro hxs hr
  constructor
  · have hle := d3 x hxs
    have hmem := d1 x hr
    have hpos := List.count_pos_iff.mpr hmem
    show (traverseFrom g (fun k st => k :: st) start).1.count x = 1
    omega
  · have hle := b3 x hxs
    have hmem := b1 x hr
    have hpos := List.count_pos_iff.mpr hmem
    show (traverseFrom g (fun k st => st ++ [k]) start).1.count x = 1
    omega

/-- C3 witness: the amended statement applied to the reference test graph,
start node 0 and target node 1. -/
theorem traversal_visits_reachable_witness :
    testGraph.WF ∧ 0 < testGraph.size ∧
    (testGraph.depthFirst 0).count 1 = 1 ∧ (testGraph.breadthFirst 0).count 1 = 1 :=
  ⟨by decide, by decide,
    ((traversal_visits_reachable testGraph 0 (by decide) (by decide) 1).2.2.1
      (by decide) (Relation.ReflTransGen.single (by decide))).1,
    ((traversal_visits_reachable testGraph 0 (by decide) (by decide) 1).2.2.1
      (by decide) (Relation.ReflTransGen.single (by decide))).2⟩
